import Mathlib

/-!
Table structure recovery: grid restoration.

A shallow embedding of `src/src/table_restoration.cpp` and
`src/include/table_restoration.h`.

Modelling choices:

* A `float` value is the rational number it denotes.  Every function that
  computes on floats takes the rounding `fl : ℚ → ℚ` applied to the result of
  each float operation (`+`, `-`, `/`, the conversion of a size to `float`);
  comparisons and `std::abs` are exact on floats.  Two roundings are used:
  `roundF32`, IEEE binary32 round-to-nearest-even (the source as compiled), and
  `id`, exact arithmetic.  Results that overflow binary32, NaN and infinities
  are outside the model.
* `std::vector<float>` is `List ℚ`; `std::sort` is a sort by `≤` (on a total
  order the sorted result is unique, so the algorithm used does not matter).
* `int` fields are `Int`; a `size_t` loop counter is `Nat` and is converted
  when it is stored into an `int`.  Sizes are far below `2^31`, so no
  wrap-around is modelled.
* `v[i]` on a vector is a read that may lie outside the vector.  The source
  does not check it; the model makes the outcome explicit as an `Option ℚ`
  (`none` is an out-of-range read).
-/

namespace TableRestoration

/-! ## Float arithmetic: IEEE binary32, round to nearest, ties to even -/

/-- Binary logarithm of a natural number, rounded down, by halving. -/
def log2Aux : Nat → Nat → Nat
  | 0, _ => 0
  | fuel + 1, n => if n < 2 then 0 else log2Aux fuel (n / 2) + 1

/-- Binary logarithm of a natural number, rounded down (0 at 0). -/
def natLog2 (n : Nat) : Nat :=
  log2Aux n n

/-- The power `2 ^ e` for an integer exponent. -/
def pow2 (e : Int) : ℚ :=
  if 0 ≤ e then ((2 ^ e.toNat : Nat) : ℚ) else 1 / ((2 ^ (-e).toNat : Nat) : ℚ)

/-- Rounding to the nearest integer, a tie going to the even one. -/
def roundNearestEven (q : ℚ) : Int :=
  if q - (⌊q⌋ : ℚ) < 1 / 2 then ⌊q⌋
  else if 1 / 2 < q - (⌊q⌋ : ℚ) then ⌊q⌋ + 1
  else if ⌊q⌋ % 2 = 0 then ⌊q⌋ else ⌊q⌋ + 1

/-- The exponent `e` with `2 ^ e ≤ q < 2 ^ (e + 1)`, for a positive `q`. -/
def binade (q : ℚ) : Int :=
  if pow2 ((natLog2 q.num.natAbs : Int) - (natLog2 q.den : Int)) ≤ q then
    (natLog2 q.num.natAbs : Int) - (natLog2 q.den : Int)
  else (natLog2 q.num.natAbs : Int) - (natLog2 q.den : Int) - 1

/-- Exponent of the unit in the last place of binary32 at a positive `q`: 24
significant bits, the exponent of subnormal numbers held at `-126`. -/
def ulpExp (q : ℚ) : Int :=
  max (binade q) (-126) - 23

/-- Rounding of a positive rational to binary32. -/
def roundPos (q : ℚ) : ℚ :=
  (roundNearestEven (q / pow2 (ulpExp q)) : ℚ) * pow2 (ulpExp q)

/-- Rounding of a rational to binary32: round to nearest, ties to even. -/
def roundF32 (q : ℚ) : ℚ :=
  if q = 0 then 0 else if q < 0 then -roundPos (-q) else roundPos q

/-! ## Data model (`table_restoration.h`) -/

/-- Input box structure: `struct Box`. -/
structure Box where
  x1 : ℚ
  y1 : ℚ
  x2 : ℚ
  y2 : ℚ
  score : ℚ
  deriving DecidableEq

/-- Output aligned cell structure: `struct AlignedCell`.  The four coordinates
of the aligned box are the results of vector reads, `none` when the read is out
of range. -/
structure AlignedCell where
  x1 : Option ℚ
  y1 : Option ℚ
  x2 : Option ℚ
  y2 : Option ℚ
  row_start : Int
  row_end : Int
  col_start : Int
  col_end : Int
  row_span : Int
  col_span : Int
  confidence : ℚ
  deriving DecidableEq

/-- Output table structure: `struct TableStructure`. -/
structure TableStructure where
  row_lines : List ℚ
  col_lines : List ℚ
  cells : List AlignedCell
  deriving DecidableEq

/-! ## Helpers of the anonymous namespace (`table_restoration.cpp`) -/

/-- The call `std::sort(coords.begin(), coords.end())`. -/
def sortCoords (coords : List ℚ) : List ℚ :=
  coords.insertionSort (fun a b => a ≤ b)

/-- The expression `std::accumulate(c.begin(), c.end(), 0.0f) / c.size()`: the
running float sum from `0.0f`, divided by the size converted to `float`. -/
def average (fl : ℚ → ℚ) (c : List ℚ) : ℚ :=
  fl (c.foldl (fun acc x => fl (acc + x)) 0 / fl (c.length : ℚ))

/-- Loop state of `clusterCoordinates`: `clusters` and `current_cluster`. -/
structure ClusterState where
  clusters : List ℚ
  current_cluster : List ℚ
  deriving DecidableEq

/-- One iteration of the grouping loop of `clusterCoordinates` (lines 21-31),
for the coordinate `c = coords[i]`.  The cluster `current_cluster` is never
empty in the loop; `back()` of it is its last element. -/
def clusterStep (fl : ℚ → ℚ) (threshold : ℚ) (st : ClusterState) (c : ℚ) : ClusterState :=
  if fl (c - st.current_cluster.getLastD 0) ≤ threshold then
    { clusters := st.clusters, current_cluster := st.current_cluster ++ [c] }
  else
    { clusters := st.clusters ++ [average fl st.current_cluster],
      current_cluster := [c] }

/-- The function `clusterCoordinates` (lines 11-39). -/
def clusterCoordinates (fl : ℚ → ℚ) (coords : List ℚ) (threshold : ℚ) : List ℚ :=
  if coords.isEmpty then []
  else
    match sortCoords coords with
    | [] => []
    | c0 :: rest =>
      let st := rest.foldl (clusterStep fl threshold)
        { clusters := [], current_cluster := [c0] }
      st.clusters ++ [average fl st.current_cluster]

/-- Loop of `findClosestLineIndex` (lines 50-56) over the lines from index `i`
on, with the current `closest_idx` and `min_dist`. -/
def closestLoop (fl : ℚ → ℚ) (coord : ℚ) : List ℚ → Nat → Int → ℚ → Int
  | [], _, closest_idx, _ => closest_idx
  | l :: ls, i, closest_idx, min_dist =>
    if |fl (l - coord)| < min_dist then
      closestLoop fl coord ls (i + 1) (i : Int) |fl (l - coord)|
    else closestLoop fl coord ls (i + 1) closest_idx min_dist

/-- The function `findClosestLineIndex` (lines 44-58). -/
def findClosestLineIndex (fl : ℚ → ℚ) (lines : List ℚ) (coord : ℚ) : Int :=
  match lines with
  | [] => 0
  | l0 :: rest => closestLoop fl coord rest 1 0 |fl (l0 - coord)|

/-- The function `ensureBoundaries` (lines 63-83); the vector modified in place
is returned. -/
def ensureBoundaries (fl : ℚ → ℚ) (lines : List ℚ)
    (boundary_min boundary_max threshold : ℚ) : List ℚ :=
  match lines with
  | [] => [boundary_min, boundary_max]
  | front :: rest =>
    let lines1 :=
      if |fl (front - boundary_min)| > threshold then boundary_min :: front :: rest
      else boundary_min :: rest
    if |fl (lines1.getLastD 0 - boundary_max)| > threshold then lines1 ++ [boundary_max]
    else lines1.dropLast ++ [boundary_max]

/-- The read `lines[i]` with an `int` index: `none` when `i` is out of range. -/
def lineAt (lines : List ℚ) (i : Int) : Option ℚ :=
  if 0 ≤ i then lines.get? i.toNat else none

/-! ## The entry point -/

/-- Body of the mapping loop of `restoreTableStructure` (lines 122-155) for one
cell. -/
def alignCell (fl : ℚ → ℚ) (row_lines col_lines : List ℚ) (cell : Box) : AlignedCell :=
  let col_start := findClosestLineIndex fl col_lines cell.x1
  let col_end := findClosestLineIndex fl col_lines cell.x2
  let row_start := findClosestLineIndex fl row_lines cell.y1
  let row_end := findClosestLineIndex fl row_lines cell.y2
  let col_span := col_end - col_start
  let row_span := row_end - row_start
  let col_end1 := if col_span = 0 then col_start + 1 else col_end
  let col_span1 := if col_span = 0 then 1 else col_span
  let row_end1 := if row_span = 0 then row_start + 1 else row_end
  let row_span1 := if row_span = 0 then 1 else row_span
  { x1 := lineAt col_lines col_start
    x2 := lineAt col_lines col_end1
    y1 := lineAt row_lines row_start
    y2 := lineAt row_lines row_end1
    row_start := row_start
    row_end := row_end1
    col_start := col_start
    col_end := col_end1
    row_span := row_span1
    col_span := col_span1
    confidence := cell.score }

/-- Coordinates pushed by the extraction loop (lines 104-109) into `x_coords`. -/
def xCoords (cells : List Box) : List ℚ :=
  cells.flatMap (fun cell => [cell.x1, cell.x2])

/-- Coordinates pushed by the extraction loop (lines 104-109) into `y_coords`. -/
def yCoords (cells : List Box) : List ℚ :=
  cells.flatMap (fun cell => [cell.y1, cell.y2])

/-- The function `restoreTableStructure` (lines 87-158). -/
def restoreTableStructure (fl : ℚ → ℚ) (cells : List Box) (table_boundary : Box)
    (cluster_threshold : ℚ) : TableStructure :=
  if cells.isEmpty then { row_lines := [], col_lines := [], cells := [] }
  else
    let col_lines :=
      ensureBoundaries fl (clusterCoordinates fl (xCoords cells) cluster_threshold)
        table_boundary.x1 table_boundary.x2 cluster_threshold
    let row_lines :=
      ensureBoundaries fl (clusterCoordinates fl (yCoords cells) cluster_threshold)
        table_boundary.y1 table_boundary.y2 cluster_threshold
    { row_lines := row_lines
      col_lines := col_lines
      cells := cells.map (alignCell fl row_lines col_lines) }

/-! ## Definitions used to state and prove the properties -/

/-- Output of `clusterCoordinates` when the loop starts with an empty `clusters`
and the cluster `cur`, and still has the coordinates `xs` to read.  A proof
device: `clusterCoordinates` is this at `cur = [coords[0]]`. -/
def clusterOut (fl : ℚ → ℚ) (threshold : ℚ) (cur xs : List ℚ) : List ℚ :=
  (xs.foldl (clusterStep fl threshold) { clusters := [], current_cluster := cur }).clusters ++
    [average fl (xs.foldl (clusterStep fl threshold)
      { clusters := [], current_cluster := cur }).current_cluster]

/-- The snap-or-insert policy in words: an empty sequence becomes
`[boundary_min, boundary_max]`; otherwise the first line is overwritten by
`boundary_min` when its computed distance to it is at most `threshold` and
`boundary_min` is prepended when it is not, and then the last line of that
intermediate sequence is overwritten by `boundary_max` when its computed
distance to it is at most `threshold` and `boundary_max` is appended when it is
not.  With `fl = id` the computed distance is the distance. -/
def snapOrInsertPolicy (fl : ℚ → ℚ) (lines : List ℚ)
    (boundary_min boundary_max threshold : ℚ) : List ℚ :=
  if lines = [] then [boundary_min, boundary_max]
  else
    let mid :=
      if |fl (lines.headD 0 - boundary_min)| ≤ threshold then lines.set 0 boundary_min
      else [boundary_min] ++ lines
    if |fl (mid.getLastD 0 - boundary_max)| ≤ threshold then
      mid.set (mid.length - 1) boundary_max
    else mid ++ [boundary_max]

/-- The index `n` is the first index of `lines` whose line has the least
computed distance `|fl (line - coord)|` to `coord`: no line has a smaller one,
and every line before it has a strictly larger one.  With `fl = id` the
computed distance is the distance. -/
def IsFirstClosest (fl : ℚ → ℚ) (lines : List ℚ) (coord : ℚ) (n : Nat) : Prop :=
  ∃ v : ℚ, lines[n]? = some v ∧
    (∀ (j : Nat) (w : ℚ), lines[j]? = some w → |fl (v - coord)| ≤ |fl (w - coord)|) ∧
    (∀ (j : Nat) (w : ℚ), j < n → lines[j]? = some w → |fl (v - coord)| < |fl (w - coord)|)

/-- The maximal runs of equal adjacent values of a list, in order: for a sorted
list, its grouping by exact value. -/
def equalRuns : List ℚ → List (List ℚ)
  | [] => []
  | x :: xs =>
    match equalRuns xs with
    | [] => [[x]]
    | r :: rs => if r.head? = some x then (x :: r) :: rs else [x] :: r :: rs

theorem log2Aux_spec (fuel : Nat) :
    ∀ n : Nat, n ≤ fuel → 0 < n →
      2 ^ log2Aux fuel n ≤ n ∧ n < 2 ^ (log2Aux fuel n + 1) := by
  induction fuel with
  | zero => intro n h1 h2; omega
  | succ fuel ih =>
    intro n h1 h2
    unfold log2Aux
    split
    · constructor <;> simp <;> omega
    · have h3 := ih (n / 2) (by omega) (by omega)
      rw [pow_succ, pow_succ]
      constructor <;> omega

theorem natLog2_spec (n : Nat) (h : 0 < n) :
    2 ^ natLog2 n ≤ n ∧ n < 2 ^ (natLog2 n + 1) :=
  log2Aux_spec n n (le_refl n) h

theorem pow2_eq_zpow (e : Int) : pow2 e = (2 : ℚ) ^ e := by
  unfold pow2
  split
  · rename_i h
    obtain ⟨k, rfl⟩ := Int.eq_ofNat_of_zero_le h
    simp
  · rename_i h
    obtain ⟨k, hk⟩ := Int.eq_ofNat_of_zero_le (show 0 ≤ -e by omega)
    have he : e = -(k : Int) := by omega
    subst he
    simp

theorem pow2_pos (e : Int) : 0 < pow2 e := by
  rw [pow2_eq_zpow]
  exact zpow_pos (by norm_num) e

theorem pow2_mono (m n : Int) (h : m ≤ n) : pow2 m ≤ pow2 n := by
  rw [pow2_eq_zpow, pow2_eq_zpow]
  exact zpow_le_zpow_right₀ (by norm_num) h

theorem pow2_add (m n : Int) : pow2 (m + n) = pow2 m * pow2 n := by
  rw [pow2_eq_zpow, pow2_eq_zpow, pow2_eq_zpow]
  exact zpow_add₀ (by norm_num) m n

theorem binade_spec (q : ℚ) (hq : 0 < q) :
    pow2 (binade q) ≤ q ∧ q < pow2 (binade q + 1) := by
  have hnum : 0 < q.num := Rat.num_pos.mpr hq
  have hden : 0 < q.den := q.den_pos
  have ha : 0 < q.num.natAbs := Int.natAbs_pos.mpr (ne_of_gt hnum)
  obtain ⟨ha1, ha2⟩ := natLog2_spec q.num.natAbs ha
  obtain ⟨hb1, hb2⟩ := natLog2_spec q.den hden
  have hqe : q = (q.num.natAbs : ℚ) / (q.den : ℚ) := by
    have h1 : ((q.num.natAbs : Int) : ℚ) = (q.num : ℚ) := by
      rw [Int.natAbs_of_nonneg (le_of_lt hnum)]
    have h2 : ((q.num.natAbs : Int) : ℚ) = (q.num.natAbs : ℚ) := Int.cast_natCast _
    rw [← h2, h1]
    exact (Rat.num_div_den q).symm
  have hA1 : ((2 : ℚ) ^ natLog2 q.num.natAbs) ≤ (q.num.natAbs : ℚ) := by exact_mod_cast ha1
  have hA2 : (q.num.natAbs : ℚ) < 2 * (2 : ℚ) ^ natLog2 q.num.natAbs := by
    rw [pow_succ] at ha2
    have : (q.num.natAbs : ℚ) < (2 : ℚ) ^ natLog2 q.num.natAbs * 2 := by exact_mod_cast ha2
    linarith
  have hB1 : ((2 : ℚ) ^ natLog2 q.den) ≤ (q.den : ℚ) := by exact_mod_cast hb1
  have hB2 : (q.den : ℚ) < 2 * (2 : ℚ) ^ natLog2 q.den := by
    rw [pow_succ] at hb2
    have : (q.den : ℚ) < (2 : ℚ) ^ natLog2 q.den * 2 := by exact_mod_cast hb2
    linarith
  have hP : (0 : ℚ) < (2 : ℚ) ^ natLog2 q.num.natAbs := pow_pos (by norm_num) _
  have hQ : (0 : ℚ) < (2 : ℚ) ^ natLog2 q.den := pow_pos (by norm_num) _
  have hB : (0 : ℚ) < (q.den : ℚ) := by exact_mod_cast hden
  have hd : pow2 ((natLog2 q.num.natAbs : Int) - (natLog2 q.den : Int)) =
      (2 : ℚ) ^ natLog2 q.num.natAbs / (2 : ℚ) ^ natLog2 q.den := by
    rw [pow2_eq_zpow, zpow_sub₀ (by norm_num), zpow_natCast, zpow_natCast]
  have hd1 : pow2 ((natLog2 q.num.natAbs : Int) - (natLog2 q.den : Int) + 1) =
      2 * (2 : ℚ) ^ natLog2 q.num.natAbs / (2 : ℚ) ^ natLog2 q.den := by
    rw [pow2_add, hd]
    have : pow2 1 = 2 := by simp [pow2]
    rw [this]
    ring
  have hd2 : pow2 ((natLog2 q.num.natAbs : Int) - (natLog2 q.den : Int) - 1) =
      (2 : ℚ) ^ natLog2 q.num.natAbs / (2 * (2 : ℚ) ^ natLog2 q.den) := by
    have h := pow2_add ((natLog2 q.num.natAbs : Int) - (natLog2 q.den : Int) - 1) 1
    rw [sub_add_cancel, hd] at h
    have h1 : pow2 1 = 2 := by simp [pow2]
    rw [h1] at h
    have h2 : pow2 ((natLog2 q.num.natAbs : Int) - (natLog2 q.den : Int) - 1) =
        (2 : ℚ) ^ natLog2 q.num.natAbs / (2 : ℚ) ^ natLog2 q.den / 2 := by linarith
    rw [h2]
    field_simp
    ring
  unfold binade
  split
  · rename_i h
    refine ⟨h, ?_⟩
    rw [hd1]
    have hlt : (q.num.natAbs : ℚ) / (q.den : ℚ) <
        2 * (2 : ℚ) ^ natLog2 q.num.natAbs / (2 : ℚ) ^ natLog2 q.den := by
      rw [div_lt_div_iff₀ hB hQ]
      nlinarith
    exact lt_of_eq_of_lt hqe hlt
  · rename_i h
    constructor
    · rw [hd2]
      have hle : (2 : ℚ) ^ natLog2 q.num.natAbs / (2 * (2 : ℚ) ^ natLog2 q.den) ≤
          (q.num.natAbs : ℚ) / (q.den : ℚ) := by
        rw [div_le_div_iff₀ (by positivity) hB]
        nlinarith
      exact le_of_le_of_eq hle hqe.symm
    · rw [sub_add_cancel]
      exact not_le.mp h

theorem binade_mono (x y : ℚ) (hx : 0 < x) (hxy : x ≤ y) : binade x ≤ binade y := by
  by_contra hcon
  have h1 : binade y + 1 ≤ binade x := by omega
  have hy := (binade_spec y (lt_of_lt_of_le hx hxy)).2
  have hx1 := (binade_spec x hx).1
  have := pow2_mono _ _ h1
  linarith

theorem roundNearestEven_bounds (q : ℚ) :
    ⌊q⌋ ≤ roundNearestEven q ∧ roundNearestEven q ≤ ⌊q⌋ + 1 := by
  unfold roundNearestEven
  split_ifs <;> constructor <;> omega

theorem roundNearestEven_intCast (n : Int) : roundNearestEven (n : ℚ) = n := by
  simp [roundNearestEven]

theorem roundNearestEven_mono (x y : ℚ) (h : x ≤ y) :
    roundNearestEven x ≤ roundNearestEven y := by
  have hf : ⌊x⌋ ≤ ⌊y⌋ := Int.floor_mono h
  rcases lt_or_eq_of_le hf with hlt | heq
  · have hx := (roundNearestEven_bounds x).2
    have hy := (roundNearestEven_bounds y).1
    omega
  · unfold roundNearestEven
    rw [heq]
    split_ifs <;> first | omega | linarith

theorem roundPos_nonneg (q : ℚ) (hq : 0 ≤ q) : 0 ≤ roundPos q := by
  unfold roundPos
  have hu := pow2_pos (ulpExp q)
  have h0 : (0 : Int) ≤ roundNearestEven (q / pow2 (ulpExp q)) := by
    have := roundNearestEven_mono 0 (q / pow2 (ulpExp q)) (div_nonneg hq (le_of_lt hu))
    have h00 : roundNearestEven 0 = 0 := by
      have := roundNearestEven_intCast 0
      simpa using this
    omega
  have : (0 : ℚ) ≤ (roundNearestEven (q / pow2 (ulpExp q)) : ℚ) := by exact_mod_cast h0
  exact mul_nonneg this (le_of_lt hu)

theorem pow2_24 : pow2 24 = ((2 ^ 24 : Int) : ℚ) := by
  simp [pow2]

theorem pow2_23 : pow2 23 = ((2 ^ 23 : Int) : ℚ) := by
  simp [pow2]

/-- A positive rational rounds to at most the upper end of its binade. -/
theorem roundPos_le (q : ℚ) (hq : 0 < q) : roundPos q ≤ pow2 (ulpExp q + 24) := by
  unfold roundPos
  have hu := pow2_pos (ulpExp q)
  have hb := (binade_spec q hq).2
  have hle : pow2 (binade q + 1) ≤ pow2 (ulpExp q + 24) := by
    apply pow2_mono
    unfold ulpExp
    have := le_max_left (binade q) (-126)
    omega
  have hq24 : q / pow2 (ulpExp q) ≤ ((2 ^ 24 : Int) : ℚ) := by
    rw [div_le_iff₀ hu, ← pow2_24, ← pow2_add, add_comm]
    linarith
  have hr := roundNearestEven_mono _ _ hq24
  rw [roundNearestEven_intCast] at hr
  have hr2 : (roundNearestEven (q / pow2 (ulpExp q)) : ℚ) ≤ ((2 ^ 24 : Int) : ℚ) := by
    exact_mod_cast hr
  calc (roundNearestEven (q / pow2 (ulpExp q)) : ℚ) * pow2 (ulpExp q)
      ≤ ((2 ^ 24 : Int) : ℚ) * pow2 (ulpExp q) := mul_le_mul_of_nonneg_right hr2 (le_of_lt hu)
    _ = pow2 (ulpExp q + 24) := by rw [← pow2_24, ← pow2_add, add_comm]

/-- A positive rational of the normal range rounds to at least the lower end of
its binade. -/
theorem le_roundPos (q : ℚ) (hq : 0 < q) (hn : -126 ≤ binade q) :
    pow2 (binade q) ≤ roundPos q := by
  unfold roundPos
  have hu := pow2_pos (ulpExp q)
  have hb := (binade_spec q hq).1
  have he : ulpExp q + 23 = binade q := by
    unfold ulpExp
    rw [max_eq_left hn]
    omega
  have hq23 : ((2 ^ 23 : Int) : ℚ) ≤ q / pow2 (ulpExp q) := by
    rw [le_div_iff₀ hu, ← pow2_23, ← pow2_add, add_comm, he]
    exact hb
  have hr := roundNearestEven_mono _ _ hq23
  rw [roundNearestEven_intCast] at hr
  have hr2 : ((2 ^ 23 : Int) : ℚ) ≤ (roundNearestEven (q / pow2 (ulpExp q)) : ℚ) := by
    exact_mod_cast hr
  calc pow2 (binade q) = ((2 ^ 23 : Int) : ℚ) * pow2 (ulpExp q) := by
        rw [← pow2_23, ← pow2_add, add_comm, he]
    _ ≤ (roundNearestEven (q / pow2 (ulpExp q)) : ℚ) * pow2 (ulpExp q) :=
        mul_le_mul_of_nonneg_right hr2 (le_of_lt hu)

theorem roundPos_mono (x y : ℚ) (hx : 0 < x) (hxy : x ≤ y) : roundPos x ≤ roundPos y := by
  have hy : 0 < y := lt_of_lt_of_le hx hxy
  have hbin := binade_mono x y hx hxy
  have hulp : ulpExp x ≤ ulpExp y := by
    unfold ulpExp
    have := max_le_max hbin (le_refl (-126 : Int))
    omega
  rcases lt_or_eq_of_le hulp with hlt | heq
  · have hny : -126 ≤ binade y := by
      unfold ulpExp at hlt
      by_contra hcon
      rw [max_eq_right (by omega : binade y ≤ -126)] at hlt
      have := le_max_right (binade x) (-126)
      omega
    have hey : ulpExp y + 23 = binade y := by
      unfold ulpExp
      rw [max_eq_left hny]
      omega
    calc roundPos x ≤ pow2 (ulpExp x + 24) := roundPos_le x hx
      _ ≤ pow2 (binade y) := pow2_mono _ _ (by omega)
      _ ≤ roundPos y := le_roundPos y hy hny
  · unfold roundPos
    rw [heq]
    have hu := pow2_pos (ulpExp y)
    have hdiv : x / pow2 (ulpExp y) ≤ y / pow2 (ulpExp y) :=
      div_le_div_of_nonneg_right hxy (le_of_lt hu)
    have hr := roundNearestEven_mono _ _ hdiv
    have hr2 : (roundNearestEven (x / pow2 (ulpExp y)) : ℚ) ≤
        (roundNearestEven (y / pow2 (ulpExp y)) : ℚ) := by exact_mod_cast hr
    exact mul_le_mul_of_nonneg_right hr2 (le_of_lt hu)

/-- Rounding to binary32 is monotone. -/
theorem roundF32_monotone : Monotone roundF32 := by
  intro x y hxy
  unfold roundF32
  by_cases hx0 : x = 0
  · subst hx0
    by_cases hy0 : y = 0
    · simp [hy0]
    · have hy : 0 < y := lt_of_le_of_ne hxy (Ne.symm hy0)
      simp only [if_true, if_neg hy0, if_neg (not_lt.mpr hxy)]
      exact roundPos_nonneg y hxy
  · by_cases hxn : x < 0
    · simp only [if_neg hx0, if_pos hxn]
      have hnx : 0 ≤ roundPos (-x) := roundPos_nonneg (-x) (by linarith)
      by_cases hy0 : y = 0
      · simp only [if_pos hy0]
        linarith
      · by_cases hyn : y < 0
        · simp only [if_neg hy0, if_pos hyn]
          have := roundPos_mono (-y) (-x) (by linarith) (by linarith)
          linarith
        · simp only [if_neg hy0, if_neg hyn]
          have := roundPos_nonneg y (not_lt.mp hyn)
          linarith
    · have hx : 0 < x := lt_of_le_of_ne (not_lt.mp hxn) (Ne.symm hx0)
      have hy : 0 < y := lt_of_lt_of_le hx hxy
      simp only [if_neg hx0, if_neg hxn, if_neg (ne_of_gt hy), if_neg (not_lt.mpr (le_of_lt hy))]
      exact roundPos_mono x y hx hxy

theorem roundF32_zero : roundF32 0 = 0 := by
  simp [roundF32]

theorem roundF32_one : roundF32 1 = 1 := by
  decide!

/-- Every binary32 value is an integer multiple of the least subnormal number
`2 ^ (-149)`. -/
theorem roundPos_grid (q : ℚ) : ∃ k : Int, roundPos q = (k : ℚ) * pow2 (-149) := by
  have he : 0 ≤ ulpExp q + 149 := by
    unfold ulpExp
    have := le_max_right (binade q) (-126)
    omega
  obtain ⟨n, hn⟩ := Int.eq_ofNat_of_zero_le he
  have hp : pow2 (ulpExp q) = ((2 ^ n : Int) : ℚ) * pow2 (-149) := by
    have h1 : ulpExp q = (n : Int) + (-149) := by omega
    rw [h1, pow2_add, pow2_eq_zpow (n : Int), zpow_natCast]
    push_cast
    rfl
  refine ⟨roundNearestEven (q / pow2 (ulpExp q)) * 2 ^ n, ?_⟩
  unfold roundPos
  rw [hp]
  push_cast
  ring

theorem roundF32_grid (q : ℚ) : ∃ k : Int, roundF32 q = (k : ℚ) * pow2 (-149) := by
  unfold roundF32
  split
  · exact ⟨0, by simp⟩
  · split
    · obtain ⟨k, hk⟩ := roundPos_grid (-q)
      exact ⟨-k, by rw [hk]; push_cast; ring⟩
    · exact roundPos_grid q

theorem roundF32_least_subnormal : roundF32 (pow2 (-149)) = pow2 (-149) := by
  decide!

/-- The computed difference of two distinct floats is not zero: for floats
`a < b` the float `b - a` is positive. -/
theorem roundF32_sub_pos (a b : ℚ) (ha : roundF32 a = a) (hb : roundF32 b = b)
    (hab : a < b) : 0 < roundF32 (b - a) := by
  obtain ⟨ka, hka⟩ := roundF32_grid a
  obtain ⟨kb, hkb⟩ := roundF32_grid b
  rw [ha] at hka
  rw [hb] at hkb
  have hu := pow2_pos (-149)
  have hk : ka < kb := by
    by_contra hcon
    have hle : (kb : ℚ) ≤ (ka : ℚ) := by exact_mod_cast not_lt.mp hcon
    have := mul_le_mul_of_nonneg_right hle (le_of_lt hu)
    rw [← hka, ← hkb] at this
    linarith
  have hk1 : (1 : ℚ) ≤ (kb : ℚ) - (ka : ℚ) := by
    have : (1 : Int) ≤ kb - ka := by omega
    exact_mod_cast this
  have hge : pow2 (-149) ≤ b - a := by
    rw [hka, hkb, ← sub_mul]
    calc pow2 (-149) = 1 * pow2 (-149) := (one_mul _).symm
      _ ≤ ((kb : ℚ) - (ka : ℚ)) * pow2 (-149) := mul_le_mul_of_nonneg_right hk1 (le_of_lt hu)
  have hm := roundF32_monotone hge
  rw [roundF32_least_subnormal] at hm
  linarith

/-! ## Cell count, order and confidence -/

/-- C6: with an empty cell list the result has empty `row_lines`, `col_lines`
and `cells`, whatever the boundary box and the threshold are. -/
theorem restore_empty (fl : ℚ → ℚ) (table_boundary : Box) (cluster_threshold : ℚ) :
    restoreTableStructure fl [] table_boundary cluster_threshold =
      { row_lines := [], col_lines := [], cells := [] } := by
  simp [restoreTableStructure]

/-- C7: the number of returned cells equals the number of input cells. -/
theorem restore_cells_length (fl : ℚ → ℚ) (cells : List Box) (table_boundary : Box)
    (cluster_threshold : ℚ) :
    (restoreTableStructure fl cells table_boundary cluster_threshold).cells.length =
      cells.length := by
  unfold restoreTableStructure
  cases cells with
  | nil => simp
  | cons c cs => simp

/-- The returned cells are the input cells mapped, in order, onto the returned
grid lines. -/
theorem restore_cells_map (fl : ℚ → ℚ) (cells : List Box) (table_boundary : Box)
    (cluster_threshold : ℚ) :
    (restoreTableStructure fl cells table_boundary cluster_threshold).cells =
      cells.map (alignCell fl
        (restoreTableStructure fl cells table_boundary cluster_threshold).row_lines
        (restoreTableStructure fl cells table_boundary cluster_threshold).col_lines) := by
  unfold restoreTableStructure
  cases cells with
  | nil => simp
  | cons c cs => simp

/-- The mapping of one cell copies `score` into `confidence`. -/
theorem alignCell_confidence (fl : ℚ → ℚ) (row_lines col_lines : List ℚ) (cell : Box) :
    (alignCell fl row_lines col_lines cell).confidence = cell.score := rfl

/-- C8: for every index `i` below the number of input cells, the `i`-th returned
cell exists and its `confidence` is the `score` of the `i`-th input cell. -/
theorem restore_confidence (fl : ℚ → ℚ) (cells : List Box) (table_boundary : Box)
    (cluster_threshold : ℚ) (i : Nat) (h : i < cells.length) :
    ((restoreTableStructure fl cells table_boundary cluster_threshold).cells.get? i).map
      AlignedCell.confidence = some (cells.get ⟨i, h⟩).score := by
  rw [restore_cells_map]
  simp [List.getElem?_map, List.getElem?_eq_getElem h, alignCell_confidence]

/-- Witness of C8 on the two cells of the end-to-end scenario, at index 1. -/
theorem restore_confidence_witness :
    ((restoreTableStructure roundF32 [⟨0, 0, 50, 20, 9 / 10⟩, ⟨50, 0, 100, 20, 8 / 10⟩]
        ⟨0, 0, 100, 20, 1⟩ 2).cells.get? 1).map AlignedCell.confidence =
      some (8 / 10) :=
  restore_confidence roundF32 [⟨0, 0, 50, 20, 9 / 10⟩, ⟨50, 0, 100, 20, 8 / 10⟩]
    ⟨0, 0, 100, 20, 1⟩ 2 1 (by decide)

/-! ## Behaviour at concrete inputs -/

/-- C1: for the single cell `{100, 0, 0, 20}` (right edge left of the left
edge) in the boundary `{0, 0, 100, 20}` with threshold 2, the grid columns are
`[0, 100]`, the cell gets `col_start = 1` and `col_end = 0`, and its `col_span`
is `-1`: the test `col_span == 0` does not catch it, so the span is below 1 and
`col_end > col_start` fails. -/
theorem restore_negative_span :
    (restoreTableStructure roundF32 [⟨100, 0, 0, 20, 9 / 10⟩] ⟨0, 0, 100, 20, 1⟩ 2).col_lines =
        [0, 100] ∧
      (restoreTableStructure roundF32 [⟨100, 0, 0, 20, 9 / 10⟩] ⟨0, 0, 100, 20, 1⟩ 2).cells.map
        (fun c => (c.col_start, c.col_end, c.col_span)) = [(1, 0, -1)] := by
  decide!

/-- C2: for the single cell `{99, 0, 100, 20}` in the boundary
`{0, 0, 100, 20}` with threshold 2, the grid columns are `[0, 100]` (length 2),
both vertical edges are nearest to line 1, the zero span is turned into
`col_end = 2`, and the read `col_lines[col_end]` for `x2` is out of range. -/
theorem restore_col_end_out_of_range :
    (restoreTableStructure roundF32 [⟨99, 0, 100, 20, 9 / 10⟩] ⟨0, 0, 100, 20, 1⟩ 2).col_lines =
        [0, 100] ∧
      (restoreTableStructure roundF32 [⟨99, 0, 100, 20, 9 / 10⟩] ⟨0, 0, 100, 20, 1⟩ 2).cells.map
        (fun c => (c.col_start, c.col_end, c.x2)) = [(1, 2, none)] := by
  decide!

/-- C4: for the single cell `{0, 0, 1, 1}` in the boundary `{0, 0, 1, 1}` with
threshold 2, the first element of `col_lines` is 1, not `boundary.x1 = 0`, and
the first element of `row_lines` is 1, not `boundary.y1 = 0`: the line snapped
to the minimum boundary is overwritten by the maximum boundary. -/
theorem restore_front_not_boundary_min :
    (restoreTableStructure roundF32 [⟨0, 0, 1, 1, 9 / 10⟩] ⟨0, 0, 1, 1, 1⟩ 2).col_lines.head? =
        some 1 ∧
      (restoreTableStructure roundF32 [⟨0, 0, 1, 1, 9 / 10⟩] ⟨0, 0, 1, 1, 1⟩ 2).row_lines.head? =
        some 1 := by
  decide!

/-- C5: for the single cell `{0, 0, 1, 1}` in the boundary `{0, 0, 1, 1}` with
threshold 2, `col_lines` and `row_lines` both have length 1. -/
theorem restore_single_line :
    (restoreTableStructure roundF32 [⟨0, 0, 1, 1, 9 / 10⟩] ⟨0, 0, 1, 1, 1⟩ 2).col_lines.length = 1 ∧
      (restoreTableStructure roundF32 [⟨0, 0, 1, 1, 9 / 10⟩] ⟨0, 0, 1, 1, 1⟩ 2).row_lines.length = 1 := by
  decide!

/-! ## Clustering: the loop unrolled -/

theorem foldl_clusterStep_clusters (fl : ℚ → ℚ) (t : ℚ) (xs : List ℚ) :
    ∀ cl cur : List ℚ,
      (xs.foldl (clusterStep fl t) { clusters := cl, current_cluster := cur }).clusters =
          cl ++ (xs.foldl (clusterStep fl t) { clusters := [], current_cluster := cur }).clusters ∧
        (xs.foldl (clusterStep fl t) { clusters := cl, current_cluster := cur }).current_cluster =
          (xs.foldl (clusterStep fl t) { clusters := [], current_cluster := cur }).current_cluster := by
  induction xs with
  | nil => intro cl cur; simp
  | cons x xs ih =>
    intro cl cur
    simp only [List.foldl_cons, clusterStep]
    split
    · exact ih cl (cur ++ [x])
    · have h1 := ih (cl ++ [average fl cur]) [x]
      have h2 := ih ([] ++ [average fl cur]) [x]
      constructor
      · rw [h1.1, h2.1]; simp
      · rw [h1.2, h2.2]

theorem clusterOut_nil (fl : ℚ → ℚ) (t : ℚ) (cur : List ℚ) : clusterOut fl t cur [] = [average fl cur] := by
  simp [clusterOut]

theorem clusterOut_cons_join (fl : ℚ → ℚ) (t : ℚ) (cur xs : List ℚ) (x : ℚ)
    (h : fl (x - cur.getLastD 0) ≤ t) :
    clusterOut fl t cur (x :: xs) = clusterOut fl t (cur ++ [x]) xs := by
  simp only [clusterOut, List.foldl_cons, clusterStep, if_pos h]

theorem clusterOut_cons_split (fl : ℚ → ℚ) (t : ℚ) (cur xs : List ℚ) (x : ℚ)
    (h : ¬ fl (x - cur.getLastD 0) ≤ t) :
    clusterOut fl t cur (x :: xs) = average fl cur :: clusterOut fl t [x] xs := by
  have h2 := foldl_clusterStep_clusters fl t xs ([] ++ [average fl cur]) [x]
  simp only [clusterOut, List.foldl_cons, clusterStep, if_neg h]
  rw [h2.1, h2.2]
  simp

theorem clusterCoordinates_eq_clusterOut (fl : ℚ → ℚ) (coords : List ℚ) (t c0 : ℚ) (rest : List ℚ)
    (h : sortCoords coords = c0 :: rest) :
    clusterCoordinates fl coords t = clusterOut fl t [c0] rest := by
  unfold clusterCoordinates
  have hne : coords ≠ [] := by
    rintro rfl
    simp [sortCoords] at h
  simp [hne, h, clusterOut]

/-- With exact arithmetic the average is the arithmetic mean. -/
theorem average_id (c : List ℚ) : average id c = c.sum / (c.length : ℚ) := by
  unfold average
  rw [List.sum_eq_foldl]
  rfl


theorem average_le (c : List ℚ) (M : ℚ) (hne : c ≠ []) (h : ∀ x ∈ c, x ≤ M) :
    average id c ≤ M := by
  rw [average_id]
  have hlen : (0 : ℚ) < (c.length : ℚ) := by
    have : 0 < c.length := List.length_pos.mpr hne
    exact_mod_cast this
  rw [div_le_iff₀ hlen]
  have hs := List.sum_le_card_nsmul c M h
  simpa [nsmul_eq_mul, mul_comm] using hs

theorem le_average (c : List ℚ) (m : ℚ) (hne : c ≠ []) (h : ∀ x ∈ c, m ≤ x) :
    m ≤ average id c := by
  rw [average_id]
  have hlen : (0 : ℚ) < (c.length : ℚ) := by
    have : 0 < c.length := List.length_pos.mpr hne
    exact_mod_cast this
  rw [le_div_iff₀ hlen]
  have hs := List.card_nsmul_le_sum c m h
  simpa [nsmul_eq_mul, mul_comm] using hs

theorem getLastD_mem_of_ne_nil (l : List ℚ) (d : ℚ) (hne : l ≠ []) : l.getLastD d ∈ l := by
  cases l with
  | nil => exact absurd rfl hne
  | cons a l =>
    rw [List.getLastD_cons]
    exact List.getLastD_mem_cons l a

/-- Invariant of the clustering loop on ascending input with a threshold of at
least 0: the centres produced are pairwise more than `t` apart (in increasing
order) and lie between the bounds of the coordinates. -/
theorem clusterOut_spec (t hi : ℚ) (ht : 0 ≤ t) (xs : List ℚ) :
    ∀ (cur : List ℚ) (lo : ℚ), cur ≠ [] →
      (∀ c ∈ cur, lo ≤ c ∧ c ≤ cur.getLastD 0) →
      List.Chain (fun a b => a ≤ b) (cur.getLastD 0) xs →
      cur.getLastD 0 ≤ hi → (∀ x ∈ xs, x ≤ hi) →
      List.Pairwise (fun a b => a + t < b) (clusterOut id t cur xs) ∧
        ∀ y ∈ clusterOut id t cur xs, lo ≤ y ∧ y ≤ hi := by
  induction xs with
  | nil =>
    intro cur lo hne hcur _ hlast _
    rw [clusterOut_nil]
    refine ⟨List.pairwise_singleton _ _, ?_⟩
    intro y hy
    rw [List.mem_singleton] at hy
    subst hy
    exact ⟨le_average cur lo hne (fun c hc => (hcur c hc).1),
      le_trans (average_le cur _ hne (fun c hc => (hcur c hc).2)) hlast⟩
  | cons x xs ih =>
    intro cur lo hne hcur hchain hlast hxs
    rw [List.chain_cons] at hchain
    obtain ⟨hlx, hchain⟩ := hchain
    have hlo : lo ≤ cur.getLastD 0 := (hcur _ (getLastD_mem_of_ne_nil cur 0 hne)).1
    have hxhi : x ≤ hi := hxs x (List.mem_cons_self x xs)
    by_cases hj : x - cur.getLastD 0 ≤ t
    · rw [clusterOut_cons_join id t cur xs x hj]
      have hl : (cur ++ [x]).getLastD 0 = x := List.getLastD_concat 0 x cur
      apply ih (cur ++ [x]) lo (by simp)
      · intro c hc
        rw [hl]
        rw [List.mem_append, List.mem_singleton] at hc
        rcases hc with hc | hc
        · exact ⟨(hcur c hc).1, le_trans (hcur c hc).2 hlx⟩
        · subst hc; exact ⟨le_trans hlo hlx, le_refl _⟩
      · rw [hl]; exact hchain
      · rw [hl]; exact hxhi
      · intro y hy; exact hxs y (List.mem_cons_of_mem x hy)
    · rw [clusterOut_cons_split id t cur xs x hj]
      have hav : average id cur ≤ cur.getLastD 0 :=
        average_le cur _ hne (fun c hc => (hcur c hc).2)
      have hgap : cur.getLastD 0 + t < x := by linarith [not_le.mp hj]
      have hI := ih [x] x (by simp) (by simp) (by simpa using hchain) (by simpa using hxhi)
        (fun y hy => hxs y (List.mem_cons_of_mem x hy))
      refine ⟨List.pairwise_cons.mpr ⟨?_, hI.1⟩, ?_⟩
      · intro y hy
        have := (hI.2 y hy).1
        linarith
      · intro y hy
        rw [List.mem_cons] at hy
        rcases hy with hy | hy
        · subst hy
          exact ⟨le_average cur lo hne (fun c hc => (hcur c hc).1), le_trans hav hlast⟩
        · exact ⟨by linarith [(hI.2 y hy).1], (hI.2 y hy).2⟩

theorem sortCoords_sorted (coords : List ℚ) :
    List.Sorted (fun a b => a ≤ b) (sortCoords coords) :=
  List.sorted_insertionSort (fun a b : ℚ => a ≤ b) coords

theorem sortCoords_perm (coords : List ℚ) : List.Perm (sortCoords coords) coords :=
  List.perm_insertionSort (fun a b : ℚ => a ≤ b) coords

theorem sortCoords_ne_nil (coords : List ℚ) (hne : coords ≠ []) : sortCoords coords ≠ [] := by
  intro h
  have hp := sortCoords_perm coords
  rw [h] at hp
  exact hne (List.nil_perm.mp hp)

/-- With a threshold of at least 0 the cluster centres are pairwise more than
the threshold apart, in increasing order, and lie within any bounds of the
input coordinates. -/
theorem clusterCoordinates_spec (coords : List ℚ) (t lo hi : ℚ) (ht : 0 ≤ t)
    (hb : ∀ c ∈ coords, lo ≤ c ∧ c ≤ hi) :
    List.Pairwise (fun a b => a + t < b) (clusterCoordinates id coords t) ∧
      ∀ y ∈ clusterCoordinates id coords t, lo ≤ y ∧ y ≤ hi := by
  cases hs : sortCoords coords with
  | nil =>
    have hnil : coords = [] := by
      by_contra hne
      exact sortCoords_ne_nil coords hne hs
    subst hnil
    simp [clusterCoordinates]
  | cons c0 rest =>
    rw [clusterCoordinates_eq_clusterOut id coords t c0 rest hs]
    have hsorted := sortCoords_sorted coords
    rw [hs] at hsorted
    have hmem : ∀ c ∈ c0 :: rest, lo ≤ c ∧ c ≤ hi := by
      intro c hc
      apply hb c
      rw [← hs] at hc
      exact (sortCoords_perm coords).mem_iff.mp hc
    apply clusterOut_spec t hi ht rest [c0] lo (by simp)
    · intro c hc
      rw [List.mem_singleton] at hc
      subst hc
      exact ⟨(hmem c (List.mem_cons_self _ _)).1, by simp⟩
    · simpa using List.Pairwise.chain hsorted
    · simpa using (hmem c0 (List.mem_cons_self _ _)).2
    · intro x hx
      exact (hmem x (List.mem_cons_of_mem _ hx)).2

/-! ## Exact arithmetic: boundary reconciliation on an increasing line sequence -/

theorem average_perm (l₁ l₂ : List ℚ) (h : List.Perm l₁ l₂) :
    average id l₁ = average id l₂ := by
  rw [average_id, average_id, h.sum_eq, h.length_eq]

/-- The average of a single float is that float, when `1` is a float. -/
theorem average_singleton (fl : ℚ → ℚ) (a : ℚ) (ha : fl a = a) (h1 : fl 1 = 1) :
    average fl [a] = a := by
  simp [average, ha, h1]

/-- When every coordinate still to read has a computed difference of at most
`t` to the one before it, the loop closes a single cluster holding everything. -/
theorem clusterOut_chained (fl : ℚ → ℚ) (t : ℚ) (xs : List ℚ) :
    ∀ cur : List ℚ, List.Chain (fun a b => fl (b - a) ≤ t) (cur.getLastD 0) xs →
      clusterOut fl t cur xs = [average fl (cur ++ xs)] := by
  induction xs with
  | nil => intro cur _; rw [clusterOut_nil, List.append_nil]
  | cons x xs ih =>
    intro cur hchain
    rw [List.chain_cons] at hchain
    rw [clusterOut_cons_join fl t cur xs x hchain.1, ih (cur ++ [x])]
    · simp
    · rw [List.getLastD_concat]; exact hchain.2

/-- When every coordinate still to read has a computed difference of more than
`t` to the one before it, the loop closes one singleton cluster per
coordinate. -/
theorem clusterOut_separated (fl : ℚ → ℚ) (t : ℚ) (h1 : fl 1 = 1) (xs : List ℚ) :
    ∀ a : ℚ, fl a = a → (∀ x ∈ xs, fl x = x) →
      List.Chain (fun a b => t < fl (b - a)) a xs → clusterOut fl t [a] xs = a :: xs := by
  induction xs with
  | nil => intro a ha _ _; rw [clusterOut_nil, average_singleton fl a ha h1]
  | cons x xs ih =>
    intro a ha hxs hchain
    rw [List.chain_cons] at hchain
    have hsplit : ¬ fl (x - [a].getLastD 0) ≤ t := by
      have hl : [a].getLastD 0 = a := rfl
      rw [hl]
      exact not_le.mpr hchain.1
    rw [clusterOut_cons_split fl t [a] xs x hsplit, average_singleton fl a ha h1,
      ih x (hxs x (List.mem_cons_self x xs)) (fun y hy => hxs y (List.mem_cons_of_mem x hy))
        hchain.2]

/-- Counterexample to C9 as stated, in binary32: the sorted coordinates
`[0, 0, 1]` are chained within the threshold 2, and the single line returned is
`0.333333343`, the rounded quotient, not the arithmetic mean `1/3`. -/
theorem clusterCoordinates_mean_rounded :
    List.Chain' (fun a b => b - a ≤ (2 : ℚ)) (sortCoords [0, 0, 1]) ∧
      clusterCoordinates roundF32 [0, 0, 1] 2 = [11184811 / 33554432] ∧
      (11184811 / 33554432 : ℚ) ≠ ([0, 0, 1] : List ℚ).sum / (([0, 0, 1] : List ℚ).length : ℚ) := by
  refine ⟨by norm_num [sortCoords, List.Chain'], by decide!, by norm_num⟩

/-- For a monotone rounding that leaves the threshold unchanged, coordinates
chained within the threshold give one cluster. -/
theorem clusterCoordinates_one_cluster (fl : ℚ → ℚ) (coords : List ℚ) (threshold : ℚ)
    (hmono : Monotone fl) (ht : fl threshold = threshold) (hne : coords ≠ [])
    (hchain : List.Chain' (fun a b => b - a ≤ threshold) (sortCoords coords)) :
    clusterCoordinates fl coords threshold = [average fl (sortCoords coords)] := by
  cases hs : sortCoords coords with
  | nil => exact absurd hs (sortCoords_ne_nil coords hne)
  | cons c0 rest =>
    rw [hs] at hchain
    have hc : List.Chain (fun a b => b - a ≤ threshold) c0 rest := by
      simpa [List.Chain'] using hchain
    rw [clusterCoordinates_eq_clusterOut fl coords threshold c0 rest hs,
      clusterOut_chained fl threshold rest [c0]]
    · rfl
    · refine List.Chain.imp ?_ hc
      intro a b hab
      calc fl (b - a) ≤ fl threshold := hmono hab
        _ = threshold := ht

/-- C9, amended: for a non-empty coordinate list and a float threshold such
that, after sorting ascending, every pair of consecutive coordinates differs by
at most `threshold`, `clusterCoordinates` returns exactly one line (also when
the largest and the smallest coordinate differ by more than `threshold`).  In
binary32 the line is the computed average of the sorted coordinates, their
running float sum divided by their count; with exact arithmetic it is the
arithmetic mean of all input coordinates. -/
theorem clusterCoordinates_chained (coords : List ℚ) (threshold : ℚ)
    (ht : roundF32 threshold = threshold) (hne : coords ≠ [])
    (hchain : List.Chain' (fun a b => b - a ≤ threshold) (sortCoords coords)) :
    clusterCoordinates roundF32 coords threshold = [average roundF32 (sortCoords coords)] ∧
      clusterCoordinates id coords threshold = [coords.sum / (coords.length : ℚ)] := by
  constructor
  · exact clusterCoordinates_one_cluster roundF32 coords threshold roundF32_monotone ht hne
      hchain
  · rw [clusterCoordinates_one_cluster id coords threshold monotone_id rfl hne hchain,
      average_perm _ _ (sortCoords_perm coords), average_id]

/-- Counterexample to C10 as stated, in binary32: the sorted coordinates
`[-0.25, 16777216]` differ by `16777216.25`, strictly more than the threshold
`16777216`, and the result is the single merged line `8388608`: the float
difference rounds to the threshold. -/
theorem clusterCoordinates_merged_by_rounding :
    List.Chain' (fun a b => (16777216 : ℚ) < b - a) (sortCoords [-1 / 4, 16777216]) ∧
      clusterCoordinates roundF32 [-1 / 4, 16777216] 16777216 = [8388608] ∧
      sortCoords [-1 / 4, 16777216] = [-1 / 4, 16777216] := by
  refine ⟨by norm_num [sortCoords, List.Chain'], by decide!, by decide!⟩

/-- C10, amended: for a list of float coordinates and a threshold such that,
after sorting ascending, every pair of consecutive coordinates has a computed
difference `fl (b - a)` strictly more than `threshold`, `clusterCoordinates`
returns the sorted input unchanged, one line per coordinate.  With exact
arithmetic the computed difference is the difference. -/
theorem clusterCoordinates_separated (fl : ℚ → ℚ) (coords : List ℚ) (threshold : ℚ)
    (h1 : fl 1 = 1) (hfl : ∀ c ∈ coords, fl c = c)
    (hsep : List.Chain' (fun a b => threshold < fl (b - a)) (sortCoords coords)) :
    clusterCoordinates fl coords threshold = sortCoords coords := by
  cases hs : sortCoords coords with
  | nil =>
    have hnil : coords = [] := by
      by_contra hne
      exact sortCoords_ne_nil coords hne hs
    subst hnil
    simp [clusterCoordinates]
  | cons c0 rest =>
    rw [hs] at hsep
    have hmem : ∀ c ∈ c0 :: rest, fl c = c := by
      intro c hc
      rw [← hs] at hc
      exact hfl c ((sortCoords_perm coords).mem_iff.mp hc)
    rw [clusterCoordinates_eq_clusterOut fl coords threshold c0 rest hs]
    exact clusterOut_separated fl threshold h1 rest c0 (hmem c0 (List.mem_cons_self _ _))
      (fun x hx => hmem x (List.mem_cons_of_mem _ hx)) (by simpa [List.Chain'] using hsep)

/-- Witness of the amended C10 in binary32: `[10.0, 10.5, 11.0]` with threshold
`0.1f` gives `[10.0, 10.5, 11.0]`. -/
theorem clusterCoordinates_separated_witness :
    clusterCoordinates roundF32 [10, 10.5, 11] (13421773 / 134217728) = [10, 10.5, 11] :=
  (clusterCoordinates_separated roundF32 [10, 10.5, 11] (13421773 / 134217728)
    (by decide!) (by decide!) (by
      have hs : sortCoords [10, 10.5, 11] = [10, 10.5, 11] := by decide!
      rw [hs]
      exact List.chain'_cons.mpr ⟨by decide!,
        List.chain'_cons.mpr ⟨by decide!, List.chain'_singleton _⟩⟩)).trans (by decide!)

/-- Witness of the amended C9: `[10.0, 10.5, 11.0]` with threshold `2.0` gives
`[10.5]`, in binary32 as with exact arithmetic. -/
theorem clusterCoordinates_chained_witness :
    clusterCoordinates roundF32 [10, 10.5, 11] 2 = [10.5] ∧
      clusterCoordinates id [10, 10.5, 11] 2 = [10.5] :=
  ⟨(clusterCoordinates_chained [10, 10.5, 11] 2 (by decide!) (by simp)
      (by norm_num [sortCoords, List.Chain'])).1.trans (by decide!),
    (clusterCoordinates_chained [10, 10.5, 11] 2 (by decide!) (by simp)
      (by norm_num [sortCoords, List.Chain'])).2.trans (by norm_num)⟩

/-! ## Boundary reconciliation: the snap-or-insert policy -/

theorem set_last_eq_dropLast_append (l : List ℚ) (v : ℚ) (hne : l ≠ []) :
    l.set (l.length - 1) v = l.dropLast ++ [v] := by
  rcases List.eq_nil_or_concat l with h | ⟨init, L, h⟩
  · exact absurd h hne
  · rw [List.concat_eq_append] at h
    subst h
    simp [List.set_append]

/-- Counterexample to C11 as stated, in binary32: for the single line
`16777216`, the boundaries `-0.25` and `50331648` and the threshold `16777216`,
the first line is farther than the threshold from the minimum boundary
(`16777216.25`), so the policy with the distances themselves prepends and gives
`[-0.25, 16777216, 50331648]`; the source computes the float distance
`16777216`, snaps, and gives `[-0.25, 50331648]`. -/
theorem ensureBoundaries_snaps_by_rounding :
    ensureBoundaries roundF32 [16777216] (-1 / 4) 50331648 16777216 = [-1 / 4, 50331648] ∧
      snapOrInsertPolicy id [16777216] (-1 / 4) 50331648 16777216 =
        [-1 / 4, 16777216, 50331648] := by
  constructor <;> decide!

/-- C11, amended: for every line sequence, boundary pair and threshold,
`ensureBoundaries` computes the snap-or-insert policy on the computed
distances: `[boundary_min, boundary_max]` on an empty sequence; otherwise snap
the first line to `boundary_min` when `|fl (first - boundary_min)|` is at most
the threshold and prepend it when not, then snap the last line of the
intermediate sequence to `boundary_max` when `|fl (last - boundary_max)|` is at
most the threshold and append it when not, all other lines unchanged.  With
exact arithmetic (`fl = id`) the computed distance is the distance. -/
theorem ensureBoundaries_eq_policy (fl : ℚ → ℚ) (lines : List ℚ)
    (boundary_min boundary_max threshold : ℚ) :
    ensureBoundaries fl lines boundary_min boundary_max threshold =
      snapOrInsertPolicy fl lines boundary_min boundary_max threshold := by
  cases lines with
  | nil => simp [ensureBoundaries, snapOrInsertPolicy]
  | cons f rest =>
    simp only [ensureBoundaries, snapOrInsertPolicy, List.headD_cons, List.set_cons_zero,
      List.singleton_append, gt_iff_lt, reduceCtorEq, if_false]
    by_cases h1 : threshold < |fl (f - boundary_min)|
    · simp only [if_pos h1, if_neg (not_le.mpr h1)]
      by_cases h2 : threshold < |fl ((boundary_min :: f :: rest).getLastD 0 - boundary_max)|
      · simp only [if_pos h2, if_neg (not_le.mpr h2)]
      · simp only [if_neg h2, if_pos (not_lt.mp h2)]
        exact (set_last_eq_dropLast_append _ _ (by simp)).symm
    · simp only [if_neg h1, if_pos (not_lt.mp h1)]
      by_cases h2 : threshold < |fl ((boundary_min :: rest).getLastD 0 - boundary_max)|
      · simp only [if_pos h2, if_neg (not_le.mpr h2)]
      · simp only [if_neg h2, if_pos (not_lt.mp h2)]
        exact (set_last_eq_dropLast_append _ _ (by simp)).symm

/-- The example of the policy in binary32: lines `[10.0, 90.0]`, boundary
`10.2f` and `95.0`, threshold `1.0` give `[10.2f, 90.0, 95.0]`. -/
theorem ensureBoundaries_snap_insert_example :
    ensureBoundaries roundF32 [10, 90] (10695475 / 1048576) 95 1 =
      [10695475 / 1048576, 90, 95] := by
  decide!

/-! ## Nearest grid line -/

theorem getElem?_concat_cases (pre : List ℚ) (l : ℚ) (j : Nat) (w : ℚ)
    (h : (pre ++ [l])[j]? = some w) :
    pre[j]? = some w ∨ (j = pre.length ∧ w = l) := by
  by_cases hj : j < pre.length
  · rw [List.getElem?_append_left hj] at h
    exact Or.inl h
  · rw [List.getElem?_append_right (not_lt.mp hj)] at h
    right
    cases hm : j - pre.length with
    | zero =>
      rw [hm] at h
      simp at h
      exact ⟨by omega, h.symm⟩
    | succ m =>
      rw [hm] at h
      simp at h

/-- Invariant of the scan of `findClosestLineIndex`: when `closest_idx = k` is
the first nearest index among the lines `pre` already read and `min_dist` is its
distance, the loop over the remaining lines `ls` returns the first nearest index
of `pre ++ ls`. -/
theorem closestLoop_spec (fl : ℚ → ℚ) (coord : ℚ) (ls : List ℚ) :
    ∀ (pre : List ℚ) (k : Nat) (md : ℚ),
      (∃ v : ℚ, pre[k]? = some v ∧ md = |fl (v - coord)|) →
      IsFirstClosest fl pre coord k →
      ∃ n : Nat, closestLoop fl coord ls pre.length (k : Int) md = (n : Int) ∧
        IsFirstClosest fl (pre ++ ls) coord n := by
  induction ls with
  | nil =>
    intro pre k md _ hfc
    exact ⟨k, rfl, by rw [List.append_nil]; exact hfc⟩
  | cons l ls ih =>
    intro pre k md hmd hfc
    obtain ⟨v, hv, hmdv⟩ := hmd
    obtain ⟨v2, hv2, hle, hlt⟩ := hfc
    have hvv : v = v2 := by
      rw [hv] at hv2
      exact Option.some.inj hv2
    subst hvv
    have hk : k < pre.length := by
      rcases List.getElem?_eq_some.mp hv with ⟨h, _⟩
      exact h
    have hlen : (pre ++ [l]).length = pre.length + 1 := by simp
    have happ : pre ++ l :: ls = (pre ++ [l]) ++ ls := by simp
    unfold closestLoop
    rw [happ, ← hlen]
    split
    · rename_i hnear
      apply ih (pre ++ [l]) pre.length |fl (l - coord)|
      · exact ⟨l, by simp, rfl⟩
      · refine ⟨l, by simp, ?_, ?_⟩
        · intro j w hj
          rcases getElem?_concat_cases pre l j w hj with h | ⟨_, h⟩
          · have := hle j w h
            rw [← hmdv] at this
            exact le_of_lt (lt_of_lt_of_le hnear this)
          · rw [h]
        · intro j w hjlt hj
          rcases getElem?_concat_cases pre l j w hj with h | ⟨h, _⟩
          · have := hle j w h
            rw [← hmdv] at this
            exact lt_of_lt_of_le hnear this
          · omega
    · rename_i hnear
      apply ih (pre ++ [l]) k md
      · exact ⟨v, by rw [List.getElem?_append_left hk]; exact hv, hmdv⟩
      · refine ⟨v, by rw [List.getElem?_append_left hk]; exact hv, ?_, ?_⟩
        · intro j w hj
          rcases getElem?_concat_cases pre l j w hj with h | ⟨_, h⟩
          · exact hle j w h
          · rw [h, ← hmdv]
            exact not_lt.mp hnear
        · intro j w hjlt hj
          rcases getElem?_concat_cases pre l j w hj with h | ⟨h, _⟩
          · exact hlt j w hjlt h
          · omega

/-- On a non-empty sequence `findClosestLineIndex` returns the first nearest
index. -/
theorem findClosestLineIndex_spec (fl : ℚ → ℚ) (lines : List ℚ) (coord : ℚ)
    (hne : lines ≠ []) :
    ∃ n : Nat, findClosestLineIndex fl lines coord = (n : Int) ∧
      IsFirstClosest fl lines coord n := by
  cases lines with
  | nil => exact absurd rfl hne
  | cons l0 rest =>
    have h := closestLoop_spec fl coord rest [l0] 0 |fl (l0 - coord)| ⟨l0, by simp, rfl⟩
      ⟨l0, by simp, by
        intro j w hj
        cases j with
        | zero => simp at hj; rw [hj]
        | succ m => simp at hj, by
        intro j w hjlt _
        omega⟩
    simpa [findClosestLineIndex] using h

theorem IsFirstClosest.lt_length (fl : ℚ → ℚ) (lines : List ℚ) (coord : ℚ) (n : Nat)
    (h : IsFirstClosest fl lines coord n) : n < lines.length := by
  obtain ⟨v, hv, _⟩ := h
  rcases List.getElem?_eq_some.mp hv with ⟨h, _⟩
  exact h

/-- Counterexample to C12 as stated, in binary32: for the lines
`[-16777216, 16777216]` and the coordinate `0.5` the source returns index 0,
although line 1 is strictly nearer (`16777215.5` against `16777216.5`): both
float distances round to `16777216`. -/
theorem findClosestLineIndex_not_nearest :
    findClosestLineIndex roundF32 [-16777216, 16777216] (1 / 2) = 0 ∧
      |(16777216 : ℚ) - 1 / 2| < |(-16777216 : ℚ) - 1 / 2| := by
  refine ⟨by decide!, by decide!⟩

/-- C12, amended: for every non-empty line sequence and every coordinate,
`findClosestLineIndex` returns an index `n` of the sequence such that no line
has a smaller computed distance `|fl (line - coord)|` to the coordinate than
line `n` and every line at a smaller index has a strictly larger one (the lowest
index wins on exact ties of the computed distance).  With exact arithmetic
(`fl = id`) the computed distance is the distance. -/
theorem findClosestLineIndex_first_closest (fl : ℚ → ℚ) (lines : List ℚ) (coord : ℚ)
    (hne : lines ≠ []) :
    ∃ n : Nat, findClosestLineIndex fl lines coord = (n : Int) ∧ n < lines.length ∧
      IsFirstClosest fl lines coord n := by
  obtain ⟨n, hn, hfc⟩ := findClosestLineIndex_spec fl lines coord hne
  exact ⟨n, hn, IsFirstClosest.lt_length fl lines coord n hfc, hfc⟩

/-- Witness of the amended C12 in binary32: in `[0, 50, 100]` the coordinate
`25` is as near to line 0 as to line 1. -/
theorem findClosestLineIndex_first_closest_witness :
    ∃ n : Nat, findClosestLineIndex roundF32 [0, 50, 100] 25 = (n : Int) ∧
      n < [(0 : ℚ), 50, 100].length ∧ IsFirstClosest roundF32 [0, 50, 100] 25 n :=
  findClosestLineIndex_first_closest roundF32 [0, 50, 100] 25 (by simp)

/-- On the tie of the coordinate `25` between the lines `0` and `50` the lower
index is returned. -/
theorem findClosestLineIndex_tie_example :
    findClosestLineIndex roundF32 [0, 50, 100] 25 = 0 := by
  decide!

/-! ## The aligned cells -/

/-- C13: for the single cell `{99, 0, 100, 20}` in the boundary
`{0, 0, 100, 20}` with threshold 2, the returned `col_lines` is `[0, 100]` and
the cell stores `col_end = 2`; `x1`, `y1` and `y2` are the grid lines at the
stored indices (`100`, `0`, `20`), and `x2` is the read `col_lines[2]` past the
end of the vector, which is no grid-line value. -/
theorem restore_x2_not_a_grid_line :
    (restoreTableStructure roundF32 [⟨99, 0, 100, 20, 9 / 10⟩]
        ⟨0, 0, 100, 20, 1⟩ 2).col_lines = [0, 100] ∧
      (restoreTableStructure roundF32 [⟨99, 0, 100, 20, 9 / 10⟩]
        ⟨0, 0, 100, 20, 1⟩ 2).row_lines = [0, 20] ∧
      (restoreTableStructure roundF32 [⟨99, 0, 100, 20, 9 / 10⟩]
        ⟨0, 0, 100, 20, 1⟩ 2).cells.map
          (fun c => (c.col_start, c.col_end, c.row_start, c.row_end)) = [(1, 2, 0, 1)] ∧
      (restoreTableStructure roundF32 [⟨99, 0, 100, 20, 9 / 10⟩]
        ⟨0, 0, 100, 20, 1⟩ 2).cells.map
          (fun c => (c.x1, c.y1, c.x2, c.y2)) = [(some 100, some 0, none, some 20)] := by
  decide!

/-- C14: the end-to-end scenario, in binary32.  The two cells
`{0, 0, 50, 20, 0.9}` and `{50, 0, 100, 20, 0.8}` with boundary
`{0, 0, 100, 20}` and threshold `2.0` give `col_lines = [0, 50, 100]`,
`row_lines = [0, 20]`, the first cell at columns `0..1` and rows `0..1`, the
second at columns `1..2` and rows `0..1`, both with `row_span = 1` and
`col_span = 1`. -/
theorem restore_end_to_end :
    (restoreTableStructure roundF32 [⟨0, 0, 50, 20, 9 / 10⟩, ⟨50, 0, 100, 20, 8 / 10⟩]
        ⟨0, 0, 100, 20, 1⟩ 2).col_lines = [0, 50, 100] ∧
      (restoreTableStructure roundF32 [⟨0, 0, 50, 20, 9 / 10⟩, ⟨50, 0, 100, 20, 8 / 10⟩]
        ⟨0, 0, 100, 20, 1⟩ 2).row_lines = [0, 20] ∧
      (restoreTableStructure roundF32 [⟨0, 0, 50, 20, 9 / 10⟩, ⟨50, 0, 100, 20, 8 / 10⟩]
        ⟨0, 0, 100, 20, 1⟩ 2).cells.map
          (fun c => (c.col_start, c.col_end, c.row_start, c.row_end, c.row_span, c.col_span)) =
        [(0, 1, 0, 1, 1, 1), (1, 2, 0, 1, 1, 1)] := by
  decide!

/-- C16: every returned cell satisfies `row_span = row_end - row_start` and
`col_span = col_end - col_start` on the values finally stored in it, also when
a zero span was corrected to 1 and when the nearest-line indices are
inverted. -/
theorem restore_span_eq (fl : ℚ → ℚ) (cells : List Box) (table_boundary : Box)
    (cluster_threshold : ℚ) :
    ∀ c ∈ (restoreTableStructure fl cells table_boundary cluster_threshold).cells,
      c.row_span = c.row_end - c.row_start ∧ c.col_span = c.col_end - c.col_start := by
  intro c hc
  rw [restore_cells_map, List.mem_map] at hc
  obtain ⟨cell, _, rfl⟩ := hc
  simp only [alignCell]
  constructor
  · split
    · simp
    · rfl
  · split
    · simp
    · rfl

/-- Witness of C16 on a returned cell with inverted column indices
(`col_start = 1`, `col_end = 0`, `col_span = -1`) and a plain row span. -/
theorem restore_span_eq_witness :
    (⟨some 100, some 0, some 0, some 20, 0, 1, 1, 0, 1, -1, 9 / 10⟩ : AlignedCell) ∈
        (restoreTableStructure roundF32 [⟨100, 0, 0, 20, 9 / 10⟩] ⟨0, 0, 100, 20, 1⟩ 2).cells ∧
      ((1 : Int) = 1 - 0 ∧ (-1 : Int) = 0 - 1) :=
  ⟨by decide!,
    restore_span_eq roundF32 [⟨100, 0, 0, 20, 9 / 10⟩] ⟨0, 0, 100, 20, 1⟩ 2
      ⟨some 100, some 0, some 0, some 20, 0, 1, 1, 0, 1, -1, 9 / 10⟩ (by decide!)⟩

/-! ## Exact arithmetic: the grid of well-formed detections -/

theorem exists_bounds (coords : List ℚ) :
    ∃ lo hi : ℚ, ∀ c ∈ coords, lo ≤ c ∧ c ≤ hi := by
  induction coords with
  | nil => exact ⟨0, 0, by simp⟩
  | cons a l ih =>
    obtain ⟨lo, hi, h⟩ := ih
    refine ⟨min a lo, max a hi, ?_⟩
    intro c hc
    rw [List.mem_cons] at hc
    rcases hc with hc | hc
    · rw [hc]; exact ⟨min_le_left _ _, le_max_left _ _⟩
    · exact ⟨le_trans (min_le_right _ _) (h c hc).1, le_trans (h c hc).2 (le_max_right _ _)⟩

/-- With a threshold of at least 0, any two output lines of `clusterCoordinates`
(the earlier `a`, the later `b`) satisfy `a + t < b`. -/
theorem clusterCoordinates_pairwise_gap (coords : List ℚ) (t : ℚ) (ht : 0 ≤ t) :
    List.Pairwise (fun a b => a + t < b) (clusterCoordinates id coords t) := by
  obtain ⟨lo, hi, h⟩ := exists_bounds coords
  exact (clusterCoordinates_spec coords t lo hi ht h).1

/-- C18: for every coordinate list and every threshold of at least 0, the
output of `clusterCoordinates` is strictly increasing and any two consecutive
output lines differ by strictly more than the threshold (coordinates modelled
as exact numbers). -/
theorem clusterCoordinates_separation (coords : List ℚ) (threshold : ℚ)
    (ht : 0 ≤ threshold) :
    List.Sorted (fun a b => a < b) (clusterCoordinates id coords threshold) ∧
      List.Chain' (fun a b => threshold < b - a) (clusterCoordinates id coords threshold) := by
  have hp := clusterCoordinates_pairwise_gap coords threshold ht
  constructor
  · exact List.Pairwise.imp (fun {a b} (h : a + threshold < b) => by linarith) hp
  · exact List.Pairwise.chain'
      (List.Pairwise.imp (fun {a b} (h : a + threshold < b) => by linarith) hp)

/-- Witness of C18 on `[10, 13, 11.5, 50, 10]` with threshold 2 (the output is
`[11.125, 50]`). -/
theorem clusterCoordinates_separation_witness :
    List.Sorted (fun a b => a < b) (clusterCoordinates id [10, 13, 11.5, 50, 10] 2) ∧
      List.Chain' (fun a b => (2 : ℚ) < b - a) (clusterCoordinates id [10, 13, 11.5, 50, 10] 2) :=
  clusterCoordinates_separation [10, 13, 11.5, 50, 10] 2 (by norm_num)

/-! ## Clustering: independence of the input order -/

theorem sortCoords_eq_of_perm (c₁ c₂ : List ℚ) (h : List.Perm c₁ c₂) :
    sortCoords c₁ = sortCoords c₂ := by
  have hp : List.Perm (sortCoords c₁) (sortCoords c₂) :=
    ((sortCoords_perm c₁).trans h).trans (sortCoords_perm c₂).symm
  exact List.eq_of_perm_of_sorted (r := fun a b : ℚ => a ≤ b) hp
    (sortCoords_sorted c₁) (sortCoords_sorted c₂)

/-- C20: for every threshold and every two coordinate lists that are
permutations of each other, `clusterCoordinates` returns the same output. -/
theorem clusterCoordinates_perm (fl : ℚ → ℚ) (coords₁ coords₂ : List ℚ) (threshold : ℚ)
    (h : List.Perm coords₁ coords₂) :
    clusterCoordinates fl coords₁ threshold = clusterCoordinates fl coords₂ threshold := by
  have hs := sortCoords_eq_of_perm coords₁ coords₂ h
  have he : coords₁.isEmpty = coords₂.isEmpty := by
    cases coords₁ with
    | nil => rw [List.nil_perm.mp h]
    | cons a l =>
      cases coords₂ with
      | nil => exact absurd (List.perm_nil.mp h) (by simp)
      | cons b m => rfl
  unfold clusterCoordinates
  rw [hs, he]

/-- Witness of C20 on `[10, 10.5, 11]` and its rearrangement `[11, 10, 10.5]`
with threshold 2. -/
theorem clusterCoordinates_perm_witness :
    clusterCoordinates roundF32 [10, 10.5, 11] 2 =
      clusterCoordinates roundF32 [11, 10, 10.5] 2 :=
  clusterCoordinates_perm roundF32 [10, 10.5, 11] [11, 10, 10.5] 2 (by decide!)

/-! ## Clustering with threshold 0 -/

theorem average_const (cur : List ℚ) (v : ℚ) (hne : cur ≠ []) (h : ∀ c ∈ cur, c = v) :
    average id cur = v :=
  le_antisymm (average_le cur v hne (fun c hc => le_of_eq (h c hc)))
    (le_average cur v hne (fun c hc => le_of_eq (h c hc).symm))

/-- The runs of `equalRuns` put together give the list back. -/
theorem equalRuns_flatten (l : List ℚ) : (equalRuns l).flatten = l := by
  induction l with
  | nil => simp [equalRuns]
  | cons x xs ih =>
    cases hr : equalRuns xs with
    | nil =>
      rw [hr] at ih
      have ih2 : xs = [] := by simpa using ih.symm
      simp [equalRuns, hr, ih2]
    | cons r rs =>
      rw [hr] at ih
      have ih2 : r ++ rs.flatten = xs := by simpa using ih
      by_cases hh : r.head? = some x
      · simp [equalRuns, hr, hh, ih2]
      · simp [equalRuns, hr, hh, ih2]

/-- Every run of `equalRuns` is non-empty and holds copies of one value. -/
theorem equalRuns_const (l : List ℚ) :
    ∀ r ∈ equalRuns l, ∃ v : ℚ, r.head? = some v ∧ ∀ x ∈ r, x = v := by
  induction l with
  | nil => simp [equalRuns]
  | cons x xs ih =>
    cases hr : equalRuns xs with
    | nil =>
      intro r hmem
      simp [equalRuns, hr] at hmem
      subst hmem
      exact ⟨x, by simp⟩
    | cons r0 rs =>
      rw [hr] at ih
      intro r hmem
      by_cases hh : r0.head? = some x
      · simp only [equalRuns, hr, hh, if_true, List.mem_cons] at hmem
        rcases hmem with hmem | hmem
        · subst hmem
          obtain ⟨v, hv, hall⟩ := ih r0 (List.mem_cons_self _ _)
          have hvx : v = x := by
            rw [hv] at hh
            exact Option.some.inj hh
          subst hvx
          refine ⟨v, by simp, ?_⟩
          intro y hy
          rw [List.mem_cons] at hy
          rcases hy with hy | hy
          · exact hy
          · exact hall y hy
        · exact ih r (List.mem_cons_of_mem _ hmem)
      · simp only [equalRuns, hr, hh, if_false, List.mem_cons] at hmem
        rcases hmem with hmem | hmem | hmem
        · subst hmem
          exact ⟨x, by simp⟩
        · subst hmem
          exact ih r (List.mem_cons_self _ _)
        · exact ih r (List.mem_cons_of_mem _ hmem)

/-- With threshold 0 on ascending input, when the computed difference of two
coordinates is positive exactly when they differ, a cluster holds copies of one
value `v` and the loop closes one cluster per run of equal values. -/
theorem clusterOut_zero_runs (fl : ℚ → ℚ) (h0 : fl 0 = 0) (xs : List ℚ) :
    ∀ (cur : List ℚ) (v : ℚ), cur ≠ [] → (∀ c ∈ cur, c = v) →
      List.Chain (fun a b => a ≤ b) v xs →
      (∀ a ∈ v :: xs, ∀ b ∈ v :: xs, a < b → 0 < fl (b - a)) →
      clusterOut fl 0 cur xs =
        (match equalRuns xs with
          | [] => [cur]
          | r :: rs => if r.head? = some v then (cur ++ r) :: rs else cur :: r :: rs).map
          (average fl) := by
  induction xs with
  | nil =>
    intro cur v _ _ _ _
    simp [clusterOut_nil, equalRuns]
  | cons x xs ih =>
    intro cur v hne hcur hchain hpos
    rw [List.chain_cons] at hchain
    have hlast : cur.getLastD 0 = v := hcur _ (getLastD_mem_of_ne_nil cur 0 hne)
    by_cases hxv : x = v
    · subst hxv
      have hj : fl (x - cur.getLastD 0) ≤ 0 := by
        rw [hlast, sub_self, h0]
      rw [clusterOut_cons_join fl 0 cur xs x hj,
        ih (cur ++ [x]) x (by simp) (by
          intro c hc
          rw [List.mem_append, List.mem_singleton] at hc
          rcases hc with hc | hc
          · exact hcur c hc
          · exact hc) hchain.2 (fun a ha b hb => hpos a (List.mem_cons_of_mem _ ha) b
            (List.mem_cons_of_mem _ hb))]
      cases hr : equalRuns xs with
      | nil => simp [equalRuns, hr]
      | cons r rs =>
        by_cases hh : r.head? = some x
        · simp [equalRuns, hr, hh]
        · simp [equalRuns, hr, hh]
    · have hlt : v < x := lt_of_le_of_ne hchain.1 (Ne.symm hxv)
      have hp : 0 < fl (x - v) :=
        hpos v (List.mem_cons_self _ _) x (List.mem_cons_of_mem _ (List.mem_cons_self _ _)) hlt
      have hs : ¬ fl (x - cur.getLastD 0) ≤ 0 := by
        rw [hlast]
        exact not_le.mpr hp
      rw [clusterOut_cons_split fl 0 cur xs x hs,
        ih [x] x (by simp) (by simp) hchain.2 (fun a ha b hb =>
          hpos a (List.mem_cons_of_mem _ ha) b (List.mem_cons_of_mem _ hb))]
      cases hr : equalRuns xs with
      | nil => simp [equalRuns, hr, hxv]
      | cons r rs =>
        by_cases hh : r.head? = some x
        · simp [equalRuns, hr, hh, hxv]
        · simp [equalRuns, hr, hh, hxv]

/-- With threshold 0, when the computed difference of two coordinates is
positive exactly when they differ, `clusterCoordinates` returns the computed
average of each run of equal values of the sorted coordinates. -/
theorem zero_threshold_runs (fl : ℚ → ℚ) (coords : List ℚ) (h0 : fl 0 = 0)
    (hpos : ∀ a ∈ coords, ∀ b ∈ coords, a < b → 0 < fl (b - a)) :
    clusterCoordinates fl coords 0 = (equalRuns (sortCoords coords)).map (average fl) := by
  cases hs : sortCoords coords with
  | nil =>
    have hnil : coords = [] := by
      by_contra hne
      exact sortCoords_ne_nil coords hne hs
    subst hnil
    simp [clusterCoordinates, equalRuns]
  | cons c0 rest =>
    have hsorted := sortCoords_sorted coords
    rw [hs] at hsorted
    have hmem : ∀ c ∈ c0 :: rest, c ∈ coords := by
      intro c hc
      rw [← hs] at hc
      exact (sortCoords_perm coords).mem_iff.mp hc
    rw [clusterCoordinates_eq_clusterOut fl coords 0 c0 rest hs,
      clusterOut_zero_runs fl h0 rest [c0] c0 (by simp) (by simp) (List.Pairwise.chain hsorted)
        (fun a ha b hb => hpos a (hmem a ha) b (hmem b hb))]
    cases hr : equalRuns rest with
    | nil => simp [equalRuns, hr]
    | cons r rs =>
      by_cases hh : r.head? = some c0
      · simp [equalRuns, hr, hh]
      · simp [equalRuns, hr, hh]

/-- With exact arithmetic and threshold 0 on ascending input, a cluster holds
copies of one value `v`, and the output lines are `v` and the values still to
read. -/
theorem clusterOut_zero_mem (xs : List ℚ) :
    ∀ (cur : List ℚ) (v : ℚ), cur ≠ [] → (∀ c ∈ cur, c = v) →
      List.Chain (fun a b => a ≤ b) v xs →
      ∀ y, y ∈ clusterOut id 0 cur xs ↔ y = v ∨ y ∈ xs := by
  induction xs with
  | nil =>
    intro cur v hne hcur _ y
    rw [clusterOut_nil, average_const cur v hne hcur]
    simp
  | cons x xs ih =>
    intro cur v hne hcur hchain y
    rw [List.chain_cons] at hchain
    have hlast : cur.getLastD 0 = v := hcur _ (getLastD_mem_of_ne_nil cur 0 hne)
    by_cases hj : id (x - cur.getLastD 0) ≤ 0
    · rw [clusterOut_cons_join id 0 cur xs x hj]
      rw [hlast, id_eq] at hj
      have hxv : x = v := le_antisymm (by linarith) hchain.1
      rw [ih (cur ++ [x]) v (by simp) (by
        intro c hc
        rw [List.mem_append, List.mem_singleton] at hc
        rcases hc with hc | hc
        · exact hcur c hc
        · rw [hc, hxv]) (by rw [← hxv]; exact hchain.2) y]
      rw [List.mem_cons, hxv]
      tauto
    · rw [clusterOut_cons_split id 0 cur xs x hj, average_const cur v hne hcur, List.mem_cons,
        ih [x] x (by simp) (by simp) hchain.2 y, List.mem_cons]

theorem mem_zero_threshold_output (coords : List ℚ) (y : ℚ) :
    y ∈ clusterCoordinates id coords 0 ↔ y ∈ coords := by
  cases hs : sortCoords coords with
  | nil =>
    have hnil : coords = [] := by
      by_contra hne
      exact sortCoords_ne_nil coords hne hs
    subst hnil
    simp [clusterCoordinates]
  | cons c0 rest =>
    have hsorted := sortCoords_sorted coords
    rw [hs] at hsorted
    rw [clusterCoordinates_eq_clusterOut id coords 0 c0 rest hs,
      clusterOut_zero_mem rest [c0] c0 (by simp) (by simp) (List.Pairwise.chain hsorted) y,
      ← List.mem_cons, ← hs]
    exact (sortCoords_perm coords).mem_iff

/-- With exact arithmetic and threshold 0 the output is the sorted list of the
distinct values of the input. -/
theorem zero_threshold_exact (coords : List ℚ) :
    clusterCoordinates id coords 0 = sortCoords coords.dedup := by
  have hsorted : List.Sorted (fun a b : ℚ => a < b) (clusterCoordinates id coords 0) :=
    List.Pairwise.imp (fun {a b} (h : a + 0 < b) => by linarith)
      (clusterCoordinates_pairwise_gap coords 0 (le_refl 0))
  have hnd₁ : (clusterCoordinates id coords 0).Nodup := hsorted.nodup
  have hnd₂ : (sortCoords coords.dedup).Nodup :=
    (sortCoords_perm coords.dedup).nodup_iff.mpr (List.nodup_dedup coords)
  have hperm : List.Perm (clusterCoordinates id coords 0) (sortCoords coords.dedup) := by
    rw [List.perm_ext_iff_of_nodup hnd₁ hnd₂]
    intro a
    rw [mem_zero_threshold_output, (sortCoords_perm coords.dedup).mem_iff, List.mem_dedup]
  exact List.eq_of_perm_of_sorted (r := fun a b : ℚ => a ≤ b) hperm
    (List.Pairwise.imp (fun {a b} (h : a < b) => le_of_lt h) hsorted)
    (sortCoords_sorted coords.dedup)

/-- Counterexample to C15 as stated, in binary32: three copies of the float
`456.44f` with threshold 0 collapse to one line, and that line is `456.440033`,
the next float above the value: the running sum and the quotient round. -/
theorem equal_values_line_rounded :
    clusterCoordinates roundF32 [7478313 / 16384, 7478313 / 16384, 7478313 / 16384] 0 =
        [14956627 / 32768] ∧
      sortCoords ([7478313 / 16384, 7478313 / 16384, 7478313 / 16384] : List ℚ).dedup =
        [7478313 / 16384] ∧
      (14956627 / 32768 : ℚ) ≠ 7478313 / 16384 := by
  refine ⟨by decide!, by decide!, by norm_num⟩

/-- C15, amended: for every list of float coordinates, `clusterCoordinates`
with threshold 0 performs exact-value grouping only.  In binary32 the sorted
coordinates are split into their runs of equal values and one line is returned
per run, the computed average of the run, so no two distinct coordinates are
merged; with exact arithmetic the line of a run is its value, and the output is
the sorted list of the distinct values of the input. -/
theorem clusterCoordinates_zero (coords : List ℚ) (hfl : ∀ c ∈ coords, roundF32 c = c) :
    clusterCoordinates roundF32 coords 0 =
        (equalRuns (sortCoords coords)).map (average roundF32) ∧
      clusterCoordinates id coords 0 = sortCoords coords.dedup :=
  ⟨zero_threshold_runs roundF32 coords roundF32_zero
      (fun a ha b hb hab => roundF32_sub_pos a b (hfl a ha) (hfl b hb) hab),
    zero_threshold_exact coords⟩

/-- Witness of the amended C15 on `[456.44f, 1, 456.44f, 2.5, 456.44f, 1]`: the
runs of equal values are `[1, 1]`, `[2.5]` and three copies of `456.44f`, whose
computed average in binary32 is the next float above it. -/
theorem clusterCoordinates_zero_witness :
    clusterCoordinates roundF32
        [7478313 / 16384, 1, 7478313 / 16384, 5 / 2, 7478313 / 16384, 1] 0 =
        [1, 5 / 2, 14956627 / 32768] ∧
      clusterCoordinates id
        [7478313 / 16384, 1, 7478313 / 16384, 5 / 2, 7478313 / 16384, 1] 0 =
        [1, 5 / 2, 7478313 / 16384] :=
  ⟨(clusterCoordinates_zero
      [7478313 / 16384, 1, 7478313 / 16384, 5 / 2, 7478313 / 16384, 1]
      (by decide!)).1.trans (by decide!),
    (clusterCoordinates_zero
      [7478313 / 16384, 1, 7478313 / 16384, 5 / 2, 7478313 / 16384, 1]
      (by decide!)).2.trans (by decide!)⟩

/-! ## Exact arithmetic: the nearest grid line is monotone on an increasing grid -/

end TableRestoration
